import Mathlib

/-!
Verification of the directory-organizer script
`src/exercises/clear_the_clutter/main.js` against its specification.

The script reads the entries of one directory (`fullPath`), and for each
entry name `file` computes `extName = path.extname(file).slice(1)`, checks
`fs.existsSync(path.join(fullPath, extName))`, creates the extension
directory with `fs.mkdirSync(..., { recursive: true })` when absent, and
moves the entry with `fs.renameSync(path.join(fullPath, file),
path.join(path.join(fullPath, extName), file))` inside a per-entry
`try/catch` that only wraps the rename.  The whole loop sits in an outer
`try/catch` that logs `"Error reading directory:"` on any uncaught error.

The embedding models the file system under `fullPath` as an association
list of named nodes (files carry an abstract content tag so overwrites are
observable), and models every call the script makes — `readdirSync`,
`existsSync`, `mkdirSync`, `renameSync` — with POSIX semantics.  Transient
I/O faults (the reason the script has `catch` blocks at all) are injected
through a `Faults` oracle; `noFault` gives the deterministic semantics.
-/

/-- Error codes that the modelled file-system calls can produce.
`injected` stands for a transient fault supplied by the fault oracle. -/
inductive FsErr where
  | enoent
  | enotdir
  | eisdir
  | enotempty
  | eexist
  | injected
deriving DecidableEq

/-- A node of the modelled file system: a file with an abstract content
tag, or a directory with named children. -/
inductive FsNode where
  | file : Nat → FsNode
  | dir : List (String × FsNode) → FsNode

/-- The children of one directory: an ordered association list from entry
name to node, as returned by `fs.readdirSync`. -/
abbrev Children := List (String × FsNode)

/-- Look an entry up by name in a directory listing. -/
def lookupChild : Children → String → Option FsNode
  | [], _ => none
  | (k, v) :: t, n => if k = n then some v else lookupChild t n

/-- Remove the entry with the given name from a directory listing. -/
def eraseChild : Children → String → Children
  | [], _ => []
  | (k, v) :: t, n => if k = n then eraseChild t n else (k, v) :: eraseChild t n

/-- Replace the node stored under an existing name, keeping the position
of the entry in the listing. -/
def setChild : Children → String → FsNode → Children
  | [], _, _ => []
  | (k, w) :: t, n, v => if k = n then (n, v) :: setChild t n v else (k, w) :: setChild t n v

/-- Store a node under a name: replace in place if the name is present,
otherwise append at the end of the listing. -/
def insertChild (ch : Children) (k : String) (v : FsNode) : Children :=
  if (lookupChild ch k).isSome then setChild ch k v else ch ++ [(k, v)]

/-- Characters after the last `'.'` of the list, or `none` when the list
contains no `'.'`. -/
def afterLastDot : List Char → Option (List Char)
  | [] => none
  | c :: rest =>
    match afterLastDot rest with
    | some s => some s
    | none => if c = '.' then some rest else none

/-- Characters of the extension of a name given as a character list: the
suffix after the last dot, where a dot in first position does not count as
an extension separator. -/
def extNameCore : List Char → List Char
  | [] => []
  | _ :: rest =>
    match afterLastDot rest with
    | some e => e
    | none => []

/-- `path.extname(file).slice(1)` from line 9 of the script: the suffix of
the name after its last dot, where a dot in first position does not count
as an extension separator (`path.extname(".gitignore") = ""`), and a name
without a dot has no extension.  No lowercasing happens. -/
def extName (s : String) : String :=
  ⟨extNameCore s.data⟩

/-- The relative path of the destination directory
`path.join(fullPath, extName)`: `path.join` drops an empty segment, so an
empty extension yields `fullPath` itself (the empty relative path). -/
def destDir (f : String) : List String :=
  if extName f = "" then [] else [extName f]

/-- The relative path of the move destination
`path.join(path.join(fullPath, extName), file)`. -/
def destPath (f : String) : List String :=
  destDir f ++ [f]

/-- Fault oracle: which `renameSync` calls (keyed by the entry being
moved) and which `mkdirSync` calls (keyed by the directory being created)
suffer a transient I/O fault. -/
structure Faults where
  renameFail : String → Bool
  mkdirFail : String → Bool

/-- The deterministic semantics: no injected faults. -/
def noFault : Faults :=
  ⟨fun _ => false, fun _ => false⟩

/-- `fs.existsSync(path.join(fullPath, x))` (line 10): for `x = ""` the
joined path is `fullPath` itself, which exists because `readdirSync` on it
succeeded. -/
def existsSyncFs (st : Children) (x : String) : Bool :=
  if x = "" then true else (lookupChild st x).isSome

/-- `fs.mkdirSync(path.join(fullPath, x), { recursive: true })` (line 19):
creating an existing directory is a no-op, creating over an existing file
fails, otherwise the directory is appended to the listing. -/
def mkdirSyncFs (st : Children) (x : String) : Except FsErr Children :=
  match lookupChild st x with
  | some (.dir _) => .ok st
  | some (.file _) => .error .eexist
  | none => .ok (st ++ [(x, .dir [])])

/-- `fs.renameSync(path.join(fullPath, f), path.join(path.join(fullPath, x), f))`
(lines 13 and 21) with POSIX `rename(2)` semantics.  When `x = ""` source
and destination coincide and the call succeeds without any change.
Otherwise the destination parent must be a directory, and an existing
destination is silently replaced when the kinds are compatible: a file
replaces a file, a directory replaces an empty directory; all other
combinations fail. -/
def renameSyncFs (st : Children) (f x : String) : Except FsErr Children :=
  if x = "" then
    if (lookupChild st f).isSome then .ok st else .error .enoent
  else
    match lookupChild st x with
    | none => .error .enoent
    | some (.file _) => .error .enotdir
    | some (.dir ch) =>
      match lookupChild st f with
      | none => .error .enoent
      | some src =>
        match lookupChild ch f, src with
        | none, _ =>
          .ok (setChild (eraseChild st f) x (.dir (insertChild ch f src)))
        | some (.file _), .file _ =>
          .ok (setChild (eraseChild st f) x (.dir (insertChild ch f src)))
        | some (.file _), .dir _ => .error .enotdir
        | some (.dir _), .file _ => .error .eisdir
        | some (.dir ch2), .dir _ =>
          if ch2.isEmpty then
            .ok (setChild (eraseChild st f) x (.dir (insertChild ch f src)))
          else .error .enotempty

/-- A `renameSync` call as the script performs it, threaded through the
fault oracle. -/
def renameCall (o : Faults) (st : Children) (f x : String) : Except FsErr Children :=
  if o.renameFail f then .error .injected else renameSyncFs st f x

/-- A `mkdirSync` call as the script performs it, threaded through the
fault oracle. -/
def mkdirCall (o : Faults) (st : Children) (x : String) : Except FsErr Children :=
  if o.mkdirFail x then .error .injected else mkdirSyncFs st x

/-- The observable console output of the script: `"folder exists"`,
`"File moved successfully!"`, the per-entry `console.error(err)`, and the
outer `console.error("Error reading directory:", err)`. -/
inductive Event where
  | folderExists : Event
  | moved : String → Event
  | moveError : String → FsErr → Event
  | outerError : FsErr → Event
deriving DecidableEq

/-- A file-system call with the path arguments the script passes to it,
relative to `fullPath` (empty path segments already dropped by
`path.join`). -/
inductive Op where
  | mkdir : List String → Op
  | rename : List String → List String → Op
deriving DecidableEq

/-- The paths an operation touches. -/
def opPaths : Op → List (List String)
  | .mkdir p => [p]
  | .rename s d => [s, d]

/-- Result of running the loop (or part of it): the resulting directory
listing, the console events, the file-system calls issued, and the
uncaught exception if one escaped the loop body. -/
structure RunResult where
  fs : Children
  events : List Event
  ops : List Op
  thrown : Option FsErr

/-- The body of `files.forEach` (lines 8–27) for one entry `f`.  The
`try/catch` blocks wrap only the `renameSync` calls, so a rename error is
recorded and swallowed, while a `mkdirSync` error escapes as an uncaught
exception. -/
def processFile (o : Faults) (st : Children) (f : String) : RunResult :=
  if existsSyncFs st (extName f) then
    match renameCall o st f (extName f) with
    | .ok st' => ⟨st', [.folderExists, .moved f], [.rename [f] (destPath f)], none⟩
    | .error e => ⟨st, [.folderExists, .moveError f e], [.rename [f] (destPath f)], none⟩
  else
    match mkdirCall o st (extName f) with
    | .error e => ⟨st, [], [.mkdir (destDir f)], some e⟩
    | .ok st1 =>
      match renameCall o st1 f (extName f) with
      | .ok st' => ⟨st', [.moved f], [.mkdir (destDir f), .rename [f] (destPath f)], none⟩
      | .error e => ⟨st1, [.moveError f e], [.mkdir (destDir f), .rename [f] (destPath f)], none⟩

/-- `files.forEach(...)`: process the scanned names in order; an uncaught
exception from one body stops the iteration, keeping the mutations made so
far. -/
def forEachFiles (o : Faults) : Children → List String → RunResult
  | st, [] => ⟨st, [], [], none⟩
  | st, f :: rest =>
    let r := processFile o st f
    match r.thrown with
    | some e => ⟨r.fs, r.events, r.ops, some e⟩
    | none =>
      let rr := forEachFiles o r.fs rest
      ⟨rr.fs, r.events ++ rr.events, r.ops ++ rr.ops, rr.thrown⟩

/-- `fs.readdirSync(fullPath)` (line 7): the names of the immediate
entries, in listing order. -/
def readdirNames (st : Children) : List String :=
  st.map Prod.fst

/-- One organizer run over an existing directory: scan it once, then
process every scanned name. -/
def organize (o : Faults) (st : Children) : RunResult :=
  forEachFiles o st (readdirNames st)

/-- The whole script (lines 4–31), outer `try/catch` included: a missing
or unreadable target directory makes `readdirSync` throw, which the outer
catch turns into a logged `"Error reading directory:"` message — the
script always returns normally.  An exception escaping the loop is caught
by the same outer handler. -/
def organizeScript (o : Faults) (root : Option Children) : Option Children × List Event :=
  match root with
  | none => (none, [.outerError .enoent])
  | some st =>
    let r := organize o st
    match r.thrown with
    | none => (some r.fs, r.events)
    | some e => (some r.fs, r.events ++ [.outerError e])

/-- A scanned entry is still accounted for: it sits at its original
top-level location, or inside the destination directory named after its
extension. -/
def locatedB (st : Children) (f : String) : Bool :=
  (lookupChild st f).isSome ||
    (match lookupChild st (extName f) with
     | some (.dir ch) => (lookupChild ch f).isSome
     | _ => false)

/-- The deterministic conditions under which `renameSyncFs` fails to move
a top-level entry `f` into the directory named after its extension: the
destination parent exists but is a plain file, or the destination path
itself is occupied by something of an incompatible kind. -/
def Blocked (st : Children) (f : String) : Prop :=
  (∃ c, lookupChild st (extName f) = some (.file c)) ∨
  (∃ ch, lookupChild st (extName f) = some (.dir ch) ∧
    ((∃ c2 ch3, lookupChild ch f = some (.file c2) ∧ lookupChild st f = some (.dir ch3)) ∨
     (∃ ch2 c3, lookupChild ch f = some (.dir ch2) ∧ lookupChild st f = some (.file c3)) ∨
     (∃ ch2 ch3, lookupChild ch f = some (.dir ch2) ∧ lookupChild st f = some (.dir ch3) ∧
       ch2.isEmpty = false)))

/-- Names `fs.readdirSync` can actually return: nonempty, without a path
separator, and neither of the special entries `.` and `..`. -/
def ValidEntryName (n : String) : Prop :=
  n.data ≠ [] ∧ '/' ∉ n.data ∧ n ≠ "." ∧ n ≠ ".."

instance : DecidablePred ValidEntryName := fun n => by
  unfold ValidEntryName
  infer_instance

/-- A path that stays inside the scanned directory: at most two segments
deep (the category directory and the entry name), every segment a real
name (nonempty, no separator, no `.` or `..`), so the path can never
escape the scanned directory. -/
def InsideRoot (p : List String) : Prop :=
  p.length ≤ 2 ∧ ∀ seg ∈ p, ValidEntryName seg

instance : DecidablePred InsideRoot := fun p => by
  unfold InsideRoot
  infer_instance

/-! ### Association-list lemmas -/

theorem lookupChild_isSome_iff {st : Children} {n : String} :
    (lookupChild st n).isSome = true ↔ n ∈ readdirNames st := by
  induction st with
  | nil => simp [lookupChild, readdirNames]
  | cons p t ih =>
    obtain ⟨k, v⟩ := p
    by_cases h : k = n
    · subst h
      simp [lookupChild, readdirNames]
    · simp [lookupChild, h, readdirNames, Ne.symm h] at ih ⊢
      exact ih

theorem lookupChild_eq_none_iff {st : Children} {n : String} :
    lookupChild st n = none ↔ n ∉ readdirNames st := by
  rw [← lookupChild_isSome_iff]
  cases lookupChild st n <;> simp

theorem lookupChild_append {s t : Children} {n : String} :
    lookupChild (s ++ t) n =
      match lookupChild s n with
      | some v => some v
      | none => lookupChild t n := by
  induction s with
  | nil => simp [lookupChild]
  | cons p s ih =>
    obtain ⟨k, v⟩ := p
    by_cases h : k = n <;> simp [lookupChild, h, ih]

theorem lookupChild_append_left {s t : Children} {n : String} {v : FsNode}
    (h : lookupChild s n = some v) : lookupChild (s ++ t) n = some v := by
  rw [lookupChild_append, h]

theorem lookupChild_append_right {s t : Children} {n : String}
    (h : lookupChild s n = none) : lookupChild (s ++ t) n = lookupChild t n := by
  rw [lookupChild_append, h]

theorem lookupChild_eraseChild_self {st : Children} {k : String} :
    lookupChild (eraseChild st k) k = none := by
  induction st with
  | nil => rfl
  | cons p t ih =>
    obtain ⟨a, v⟩ := p
    by_cases h : a = k <;> simp [eraseChild, lookupChild, h, ih]

theorem lookupChild_eraseChild_ne {st : Children} {k n : String} (h : n ≠ k) :
    lookupChild (eraseChild st k) n = lookupChild st n := by
  induction st with
  | nil => rfl
  | cons p t ih =>
    obtain ⟨a, v⟩ := p
    by_cases ha : a = k
    · subst ha
      simp [eraseChild, lookupChild, Ne.symm h, ih]
    · by_cases hn : a = n <;> simp [eraseChild, lookupChild, ha, hn, h, ih]

theorem lookupChild_setChild_ne {st : Children} {k n : String} {v : FsNode} (h : n ≠ k) :
    lookupChild (setChild st k v) n = lookupChild st n := by
  induction st with
  | nil => rfl
  | cons p t ih =>
    obtain ⟨a, w⟩ := p
    by_cases ha : a = k
    · subst ha
      simp [setChild, lookupChild, Ne.symm h, ih]
    · by_cases hn : a = n <;> simp [setChild, lookupChild, ha, hn, h, ih]

theorem lookupChild_setChild_self {st : Children} {k : String} {v : FsNode}
    (h : (lookupChild st k).isSome = true) : lookupChild (setChild st k v) k = some v := by
  induction st with
  | nil => simp [lookupChild] at h
  | cons p t ih =>
    obtain ⟨a, w⟩ := p
    by_cases ha : a = k
    · subst ha
      simp [setChild, lookupChild]
    · simp [lookupChild, ha] at h
      simp [setChild, lookupChild, ha, ih h]

theorem lookupChild_insertChild_self {ch : Children} {k : String} {v : FsNode} :
    lookupChild (insertChild ch k v) k = some v := by
  unfold insertChild
  cases hk : lookupChild ch k with
  | some w =>
    rw [if_pos (by simp [hk])]
    exact lookupChild_setChild_self (by simp [hk])
  | none =>
    rw [if_neg (by simp [hk]), lookupChild_append_right hk]
    simp [lookupChild]

theorem lookupChild_insertChild_ne {ch : Children} {k n : String} {v : FsNode} (h : n ≠ k) :
    lookupChild (insertChild ch k v) n = lookupChild ch n := by
  unfold insertChild
  cases hk : lookupChild ch k with
  | some w =>
    rw [if_pos (by simp [hk])]
    exact lookupChild_setChild_ne h
  | none =>
    rw [if_neg (by simp [hk]), lookupChild_append]
    cases hc : lookupChild ch n with
    | some w => rfl
    | none => simp [lookupChild, Ne.symm h]

theorem readdirNames_append {s t : Children} :
    readdirNames (s ++ t) = readdirNames s ++ readdirNames t := by
  simp [readdirNames]

theorem readdirNames_setChild {st : Children} {k : String} {v : FsNode} :
    readdirNames (setChild st k v) = readdirNames st := by
  induction st with
  | nil => rfl
  | cons p t ih =>
    obtain ⟨a, w⟩ := p
    by_cases ha : a = k
    · subst ha
      simp only [setChild, if_pos rfl, readdirNames, List.map_cons]
      exact congrArg _ ih
    · simp only [setChild, if_neg ha, readdirNames, List.map_cons]
      exact congrArg _ ih

theorem mem_readdirNames_eraseChild {st : Children} {k n : String}
    (h : n ∈ readdirNames (eraseChild st k)) : n ∈ readdirNames st := by
  by_cases hnk : n = k
  · subst hnk
    have := lookupChild_isSome_iff.2 h
    rw [lookupChild_eraseChild_self] at this
    cases this
  · rw [← lookupChild_isSome_iff] at h ⊢
    rwa [lookupChild_eraseChild_ne hnk] at h

/-! ### Extension computation lemmas -/

theorem afterLastDot_eq_none_iff {l : List Char} : afterLastDot l = none ↔ '.' ∉ l := by
  induction l with
  | nil => simp [afterLastDot]
  | cons c rest ih =>
    simp only [afterLastDot, List.mem_cons]
    cases h : afterLastDot rest with
    | some s =>
      have hr : '.' ∈ rest := by
        by_contra hd
        rw [ih.mpr hd] at h
        exact Option.noConfusion h
      simp [hr]
    | none =>
      have hr : '.' ∉ rest := ih.mp h
      by_cases hc : c = '.'
      · simp [hc]
      · simp [hc, hr, Ne.symm hc]

theorem dot_not_mem_afterLastDot {l s : List Char} (h : afterLastDot l = some s) :
    '.' ∉ s := by
  induction l with
  | nil => cases h
  | cons c rest ih =>
    simp only [afterLastDot] at h
    cases hr : afterLastDot rest with
    | some t =>
      rw [hr] at h
      have ht := Option.some.inj h
      subst ht
      exact ih hr
    | none =>
      rw [hr] at h
      by_cases hc : c = '.'
      · rw [if_pos hc] at h
        have ht := Option.some.inj h
        subst ht
        exact afterLastDot_eq_none_iff.mp hr
      · rw [if_neg hc] at h
        cases h

theorem mem_of_mem_afterLastDot {l s : List Char} (h : afterLastDot l = some s) :
    ∀ c ∈ s, c ∈ l := by
  induction l with
  | nil => cases h
  | cons a rest ih =>
    simp only [afterLastDot] at h
    cases hr : afterLastDot rest with
    | some t =>
      rw [hr] at h
      have ht := Option.some.inj h
      subst ht
      intro c hc
      exact List.mem_cons_of_mem _ (ih hr c hc)
    | none =>
      rw [hr] at h
      by_cases ha : a = '.'
      · rw [if_pos ha] at h
        have ht := Option.some.inj h
        subst ht
        intro c hc
        exact List.mem_cons_of_mem _ hc
      · rw [if_neg ha] at h
        cases h

theorem afterLastDot_append {xs b : List Char} (hb : '.' ∉ b) :
    afterLastDot (xs ++ '.' :: b) = some b := by
  induction xs with
  | nil =>
    simp only [List.nil_append, afterLastDot]
    rw [afterLastDot_eq_none_iff.mpr hb]
    simp
  | cons c xs ih =>
    simp only [List.cons_append, afterLastDot, List.append_eq, ih]

theorem extNameCore_eq_nil_of_no_dot {l : List Char} (h : '.' ∉ l) : extNameCore l = [] := by
  cases l with
  | nil => rfl
  | cons c rest =>
    have hr : afterLastDot rest = none :=
      afterLastDot_eq_none_iff.mpr fun hm => h (List.mem_cons_of_mem _ hm)
    simp only [extNameCore, hr]

theorem extName_eq_empty_of_no_dot {s : String} (h : '.' ∉ s.data) : extName s = "" := by
  unfold extName
  rw [extNameCore_eq_nil_of_no_dot h]

theorem dot_mem_of_extName_ne {s : String} (h : extName s ≠ "") : '.' ∈ s.data := by
  by_contra hd
  exact h (extName_eq_empty_of_no_dot hd)

theorem dot_not_mem_extNameCore (l : List Char) : '.' ∉ extNameCore l := by
  cases l with
  | nil => intro hx; cases hx
  | cons c rest =>
    cases ha : afterLastDot rest with
    | some e =>
      simp only [extNameCore, ha]
      exact dot_not_mem_afterLastDot ha
    | none =>
      simp only [extNameCore, ha]
      intro hx; cases hx

theorem dot_not_mem_extName (s : String) : '.' ∉ (extName s).data :=
  dot_not_mem_extNameCore s.data

theorem mem_of_mem_extNameCore {l : List Char} {c : Char} (h : c ∈ extNameCore l) :
    c ∈ l := by
  cases l with
  | nil => cases h
  | cons a rest =>
    cases ha : afterLastDot rest with
    | some e =>
      simp only [extNameCore, ha] at h
      exact List.mem_cons_of_mem _ (mem_of_mem_afterLastDot ha c h)
    | none =>
      simp only [extNameCore, ha] at h
      cases h

theorem mem_data_of_mem_extName {s : String} {c : Char} (h : c ∈ (extName s).data) :
    c ∈ s.data :=
  mem_of_mem_extNameCore h

theorem ne_of_dotted_of_dotfree {n m : String} (hn : extName n ≠ "") (hm : '.' ∉ m.data) :
    n ≠ m :=
  fun he => hm (he ▸ dot_mem_of_extName_ne hn)

theorem extName_extName (f : String) : extName (extName f) = "" :=
  extName_eq_empty_of_no_dot (dot_not_mem_extName f)

theorem existsSyncFs_false_elim {st : Children} {x : String}
    (h : existsSyncFs st x = false) : x ≠ "" ∧ lookupChild st x = none := by
  unfold existsSyncFs at h
  by_cases hx : x = ""
  · rw [if_pos hx] at h
    cases h
  · rw [if_neg hx] at h
    refine ⟨hx, ?_⟩
    cases hl : lookupChild st x with
    | none => rfl
    | some v => rw [hl] at h; cases h

theorem existsSyncFs_true_of_lookup {st : Children} {x : String} {v : FsNode}
    (h : lookupChild st x = some v) : existsSyncFs st x = true := by
  unfold existsSyncFs
  by_cases hx : x = "" <;> simp [hx, h]

/-! ### Branch characterizations of the loop body -/

theorem processFile_exists_ok {o : Faults} {st st' : Children} {f : String}
    (hex : existsSyncFs st (extName f) = true)
    (hr : renameCall o st f (extName f) = .ok st') :
    processFile o st f =
      ⟨st', [.folderExists, .moved f], [.rename [f] (destPath f)], none⟩ := by
  simp [processFile, hex, hr]

theorem processFile_exists_err {o : Faults} {st : Children} {f : String} {e : FsErr}
    (hex : existsSyncFs st (extName f) = true)
    (hr : renameCall o st f (extName f) = .error e) :
    processFile o st f =
      ⟨st, [.folderExists, .moveError f e], [.rename [f] (destPath f)], none⟩ := by
  simp [processFile, hex, hr]

theorem processFile_mkdir_err {o : Faults} {st : Children} {f : String} {e : FsErr}
    (hex : existsSyncFs st (extName f) = false)
    (hm : mkdirCall o st (extName f) = .error e) :
    processFile o st f = ⟨st, [], [.mkdir (destDir f)], some e⟩ := by
  simp [processFile, hex, hm]

theorem processFile_new_ok {o : Faults} {st st1 st' : Children} {f : String}
    (hex : existsSyncFs st (extName f) = false)
    (hm : mkdirCall o st (extName f) = .ok st1)
    (hr : renameCall o st1 f (extName f) = .ok st') :
    processFile o st f =
      ⟨st', [.moved f], [.mkdir (destDir f), .rename [f] (destPath f)], none⟩ := by
  simp [processFile, hex, hm, hr]

theorem processFile_new_err {o : Faults} {st st1 : Children} {f : String} {e : FsErr}
    (hex : existsSyncFs st (extName f) = false)
    (hm : mkdirCall o st (extName f) = .ok st1)
    (hr : renameCall o st1 f (extName f) = .error e) :
    processFile o st f =
      ⟨st1, [.moveError f e], [.mkdir (destDir f), .rename [f] (destPath f)], none⟩ := by
  simp [processFile, hex, hm, hr]

theorem forEachFiles_cons {o : Faults} {st : Children} {f : String} {rest : List String} :
    forEachFiles o st (f :: rest) =
      match (processFile o st f).thrown with
      | some e =>
        ⟨(processFile o st f).fs, (processFile o st f).events, (processFile o st f).ops,
          some e⟩
      | none =>
        ⟨(forEachFiles o (processFile o st f).fs rest).fs,
         (processFile o st f).events ++ (forEachFiles o (processFile o st f).fs rest).events,
         (processFile o st f).ops ++ (forEachFiles o (processFile o st f).fs rest).ops,
         (forEachFiles o (processFile o st f).fs rest).thrown⟩ := rfl

theorem forEachFiles_cons_of_thrown_none {o : Faults} {st : Children} {f : String}
    {rest : List String} (h : (processFile o st f).thrown = none) :
    forEachFiles o st (f :: rest) =
      ⟨(forEachFiles o (processFile o st f).fs rest).fs,
       (processFile o st f).events ++ (forEachFiles o (processFile o st f).fs rest).events,
       (processFile o st f).ops ++ (forEachFiles o (processFile o st f).fs rest).ops,
       (forEachFiles o (processFile o st f).fs rest).thrown⟩ := by
  rw [forEachFiles_cons, h]

theorem forEachFiles_cons_of_thrown {o : Faults} {st : Children} {f : String}
    {rest : List String} {e : FsErr} (h : (processFile o st f).thrown = some e) :
    forEachFiles o st (f :: rest) =
      ⟨(processFile o st f).fs, (processFile o st f).events, (processFile o st f).ops,
        some e⟩ := by
  rw [forEachFiles_cons, h]

theorem processFile_noFault_thrown (st : Children) (f : String) :
    (processFile noFault st f).thrown = none := by
  cases hex : existsSyncFs st (extName f) with
  | true =>
    cases hr : renameCall noFault st f (extName f) with
    | ok st' => rw [processFile_exists_ok hex hr]
    | error e => rw [processFile_exists_err hex hr]
  | false =>
    obtain ⟨hx, hl⟩ := existsSyncFs_false_elim hex
    have hm : mkdirCall noFault st (extName f) = .ok (st ++ [(extName f, .dir [])]) := by
      simp [mkdirCall, noFault, mkdirSyncFs, hl]
    cases hr : renameCall noFault (st ++ [(extName f, .dir [])]) f (extName f) with
    | ok st' => rw [processFile_new_ok hex hm hr]
    | error e => rw [processFile_new_err hex hm hr]

/-! ### Case analyses of the file-system calls -/

theorem renameSyncFs_ok_cases {st st' : Children} {f x : String}
    (h : renameSyncFs st f x = .ok st') :
    (x = "" ∧ st' = st) ∨
    (x ≠ "" ∧ ∃ ch src, lookupChild st x = some (.dir ch) ∧ lookupChild st f = some src ∧
      st' = setChild (eraseChild st f) x (.dir (insertChild ch f src))) := by
  unfold renameSyncFs at h
  by_cases hx : x = ""
  · rw [if_pos hx] at h
    left
    refine ⟨hx, ?_⟩
    by_cases hf : (lookupChild st f).isSome = true
    · rw [if_pos hf] at h
      exact (Except.ok.inj h).symm
    · rw [if_neg hf] at h
      cases h
  · rw [if_neg hx] at h
    right
    refine ⟨hx, ?_⟩
    cases hpx : lookupChild st x with
    | none => simp only [hpx] at h; cases h
    | some v =>
      cases v with
      | file c => simp only [hpx] at h; cases h
      | dir ch =>
        simp only [hpx] at h
        cases hpf : lookupChild st f with
        | none => simp only [hpf] at h; cases h
        | some src =>
          simp only [hpf] at h
          refine ⟨ch, src, rfl, rfl, ?_⟩
          cases hd : lookupChild ch f with
          | none =>
            simp only [hd] at h
            exact (Except.ok.inj h).symm
          | some d =>
            cases d with
            | file c2 =>
              cases src with
              | file c3 =>
                simp only [hd] at h
                exact (Except.ok.inj h).symm
              | dir ch3 => simp only [hd] at h; cases h
            | dir ch2 =>
              cases src with
              | file c3 => simp only [hd] at h; cases h
              | dir ch3 =>
                simp only [hd] at h
                by_cases he : ch2.isEmpty = true
                · rw [if_pos he] at h
                  exact (Except.ok.inj h).symm
                · rw [if_neg he] at h
                  cases h

theorem renameCall_ok_cases {o : Faults} {st st' : Children} {f x : String}
    (h : renameCall o st f x = .ok st') :
    (x = "" ∧ st' = st) ∨
    (x ≠ "" ∧ ∃ ch src, lookupChild st x = some (.dir ch) ∧ lookupChild st f = some src ∧
      st' = setChild (eraseChild st f) x (.dir (insertChild ch f src))) := by
  unfold renameCall at h
  by_cases ho : o.renameFail f = true
  · rw [if_pos ho] at h
    cases h
  · rw [if_neg ho] at h
    exact renameSyncFs_ok_cases h

theorem mkdirCall_ok_of_fresh {o : Faults} {st st1 : Children} {x : String}
    (hl : lookupChild st x = none) (h : mkdirCall o st x = .ok st1) :
    st1 = st ++ [(x, .dir [])] := by
  unfold mkdirCall at h
  by_cases ho : o.mkdirFail x = true
  · rw [if_pos ho] at h
    cases h
  · rw [if_neg ho] at h
    unfold mkdirSyncFs at h
    simp only [hl] at h
    exact (Except.ok.inj h).symm

/-- Everything `processFile` can do to the directory listing: leave it
unchanged, only create the fresh extension directory, or create the
extension directory if needed and then perform the move. -/
theorem processFile_fs_cases (o : Faults) (st : Children) (f : String) :
    (processFile o st f).fs = st ∨
    (lookupChild st (extName f) = none ∧
      (processFile o st f).fs = st ++ [(extName f, FsNode.dir [])]) ∨
    (∃ sM ch src, extName f ≠ "" ∧
      (sM = st ∨ (lookupChild st (extName f) = none ∧ sM = st ++ [(extName f, FsNode.dir [])])) ∧
      lookupChild sM (extName f) = some (.dir ch) ∧
      lookupChild sM f = some src ∧
      (processFile o st f).fs =
        setChild (eraseChild sM f) (extName f) (.dir (insertChild ch f src))) := by
  cases hex : existsSyncFs st (extName f) with
  | true =>
    cases hr : renameCall o st f (extName f) with
    | error e =>
      rw [processFile_exists_err hex hr]
      exact Or.inl rfl
    | ok st' =>
      rw [processFile_exists_ok hex hr]
      rcases renameCall_ok_cases hr with ⟨hx, rfl⟩ | ⟨hx, ch, src, hpx, hpf, rfl⟩
      · exact Or.inl rfl
      · exact Or.inr (Or.inr ⟨st, ch, src, hx, Or.inl rfl, hpx, hpf, rfl⟩)
  | false =>
    obtain ⟨hx, hl⟩ := existsSyncFs_false_elim hex
    cases hm : mkdirCall o st (extName f) with
    | error e =>
      rw [processFile_mkdir_err hex hm]
      exact Or.inl rfl
    | ok st1 =>
      have hst1 := mkdirCall_ok_of_fresh hl hm
      subst hst1
      cases hr : renameCall o (st ++ [(extName f, FsNode.dir [])]) f (extName f) with
      | error e =>
        rw [processFile_new_err hex hm hr]
        exact Or.inr (Or.inl ⟨hl, rfl⟩)
      | ok st' =>
        rw [processFile_new_ok hex hm hr]
        rcases renameCall_ok_cases hr with ⟨hxe, rfl⟩ | ⟨hxe, ch, src, hpx, hpf, rfl⟩
        · exact absurd hxe hx
        · exact Or.inr (Or.inr
            ⟨st ++ [(extName f, FsNode.dir [])], ch, src, hx, Or.inr ⟨hl, rfl⟩, hpx, hpf, rfl⟩)

/-! ### Preservation of scanned entries (no data loss) -/

theorem locatedB_eq_true_iff {st : Children} {n : String} :
    locatedB st n = true ↔
      (lookupChild st n).isSome = true ∨
        ∃ ch, lookupChild st (extName n) = some (.dir ch) ∧ (lookupChild ch n).isSome = true := by
  unfold locatedB
  cases hp : lookupChild st (extName n) with
  | none => simp [hp]
  | some v =>
    cases v with
    | file c => simp [hp]
    | dir ch => simp [hp]

theorem processFile_preserves_locatedB (o : Faults) (st : Children) (f n : String)
    (h : locatedB st n = true) : locatedB (processFile o st f).fs n = true := by
  rcases processFile_fs_cases o st f with hfs | ⟨hfresh, hfs⟩ | ⟨sM, ch, src, hx, hsM, hpx, hpf, hfs⟩
  · rwa [hfs]
  · rw [hfs]
    rw [locatedB_eq_true_iff] at h ⊢
    rcases h with h | ⟨chn, hchn, hmem⟩
    · left
      cases hl : lookupChild st n with
      | none => rw [hl] at h; cases h
      | some v => rw [lookupChild_append_left hl]; rfl
    · exact Or.inr ⟨chn, lookupChild_append_left hchn, hmem⟩
  · rw [hfs]
    have hsome : ∀ (k : String) (v : FsNode), lookupChild st k = some v → lookupChild sM k = some v := by
      rcases hsM with rfl | ⟨hfresh, rfl⟩
      · exact fun k v hv => hv
      · exact fun k v hv => lookupChild_append_left hv
    have hfx : f ≠ extName f := ne_of_dotted_of_dotfree hx (dot_not_mem_extName f)
    rw [locatedB_eq_true_iff]
    by_cases hnf : n = f
    · subst hnf
      refine Or.inr ⟨insertChild ch n src, ?_, ?_⟩
      · rw [lookupChild_setChild_self]
        rw [lookupChild_eraseChild_ne (Ne.symm hfx), hpx]
        rfl
      · rw [lookupChild_insertChild_self]
        rfl
    · rw [locatedB_eq_true_iff] at h
      rcases h with h | ⟨chn, hchn, hmem⟩
      · left
        cases hl : lookupChild st n with
        | none => rw [hl] at h; cases h
        | some v =>
          have hsMn : lookupChild sM n = some v := hsome n v hl
          by_cases hnx : n = extName f
          · subst hnx
            rw [lookupChild_setChild_self
              (by rw [lookupChild_eraseChild_ne (Ne.symm hfx)]; exact hpx ▸ rfl)]
            rfl
          · rw [lookupChild_setChild_ne hnx, lookupChild_eraseChild_ne hnf, hsMn]
            rfl
      · have hyfree : '.' ∉ (extName n).data := dot_not_mem_extName n
        have hfy : f ≠ extName n := ne_of_dotted_of_dotfree hx hyfree
        have hsMy : lookupChild sM (extName n) = some (.dir chn) := hsome _ _ hchn
        by_cases hyx : extName n = extName f
        · have hcc : ch = chn := by
            rw [hyx] at hsMy
            rw [hpx] at hsMy
            exact FsNode.dir.inj (Option.some.inj hsMy)
          subst hcc
          refine Or.inr ⟨insertChild ch f src, ?_, ?_⟩
          · rw [hyx]
            rw [lookupChild_setChild_self
              (by rw [lookupChild_eraseChild_ne (Ne.symm hfx)]; exact hpx ▸ rfl)]
          · rw [lookupChild_insertChild_ne hnf, hmem]
        · refine Or.inr ⟨chn, ?_, hmem⟩
          rw [lookupChild_setChild_ne hyx, lookupChild_eraseChild_ne (Ne.symm hfy), hsMy]

theorem forEachFiles_preserves_locatedB (o : Faults) (l : List String) :
    ∀ st n, locatedB st n = true → locatedB (forEachFiles o st l).fs n = true := by
  induction l with
  | nil => exact fun st n h => h
  | cons f rest ih =>
    intro st n h
    cases ht : (processFile o st f).thrown with
    | some e =>
      rw [forEachFiles_cons_of_thrown ht]
      exact processFile_preserves_locatedB o st f n h
    | none =>
      rw [forEachFiles_cons_of_thrown_none ht]
      exact ih _ n (processFile_preserves_locatedB o st f n h)

/-! ### Idempotence machinery -/

theorem not_mem_readdirNames_eraseChild_self {s : Children} {f : String} :
    f ∉ readdirNames (eraseChild s f) := by
  intro h
  have := lookupChild_isSome_iff.mpr h
  rw [lookupChild_eraseChild_self] at this
  cases this

theorem forEachFiles_fs_cons_of_thrown_none {o : Faults} {st : Children} {f : String}
    {rest : List String} (h : (processFile o st f).thrown = none) :
    (forEachFiles o st (f :: rest)).fs = (forEachFiles o (processFile o st f).fs rest).fs := by
  rw [forEachFiles_cons_of_thrown_none h]

theorem renameSyncFs_err_of_blocked {st : Children} {f : String}
    (hx : extName f ≠ "") (hb : Blocked st f) :
    ∃ e, renameSyncFs st f (extName f) = .error e := by
  unfold renameSyncFs
  rw [if_neg hx]
  rcases hb with ⟨c, hc⟩ | ⟨ch, hch, hin⟩
  · exact ⟨.enotdir, by simp only [hc]⟩
  · rcases hin with ⟨c2, ch3, hd, hs⟩ | ⟨ch2, c3, hd, hs⟩ | ⟨ch2, ch3, hd, hs, hemp⟩
    · exact ⟨.enotdir, by simp only [hch, hs, hd]⟩
    · exact ⟨.eisdir, by simp only [hch, hs, hd]⟩
    · exact ⟨.enotempty, by simp only [hch, hs, hd, hemp, Bool.false_eq_true, if_false]⟩

theorem renameSyncFs_err_blocked {st : Children} {f : String} {e : FsErr}
    (hx : extName f ≠ "") (he : renameSyncFs st f (extName f) = .error e)
    (hpx : (lookupChild st (extName f)).isSome = true)
    (hpf : (lookupChild st f).isSome = true) :
    Blocked st f := by
  unfold renameSyncFs at he
  rw [if_neg hx] at he
  cases hcx : lookupChild st (extName f) with
  | none => rw [hcx] at hpx; cases hpx
  | some v =>
    cases v with
    | file c => exact Or.inl ⟨c, hcx⟩
    | dir ch =>
      simp only [hcx] at he
      cases hcf : lookupChild st f with
      | none => rw [hcf] at hpf; cases hpf
      | some src =>
        simp only [hcf] at he
        cases hd : lookupChild ch f with
        | none => simp only [hd] at he; cases he
        | some d =>
          cases d with
          | file c2 =>
            cases src with
            | file c3 => simp only [hd] at he; cases he
            | dir ch3 => exact Or.inr ⟨ch, hcx, Or.inl ⟨c2, ch3, hd, hcf⟩⟩
          | dir ch2 =>
            cases src with
            | file c3 => exact Or.inr ⟨ch, hcx, Or.inr (Or.inl ⟨ch2, c3, hd, hcf⟩)⟩
            | dir ch3 =>
              simp only [hd] at he
              by_cases hemp : ch2.isEmpty = true
              · rw [if_pos hemp] at he
                cases he
              · refine Or.inr ⟨ch, hcx, Or.inr (Or.inr ⟨ch2, ch3, hd, hcf, ?_⟩)⟩
                cases hv : ch2.isEmpty with
                | true => exact absurd hv hemp
                | false => rfl

theorem processFile_id_of_blocked (s : Children) (n : String)
    (hn : n ∈ readdirNames s)
    (h : extName n = "" ∨ (extName n ≠ "" ∧ Blocked s n)) :
    (processFile noFault s n).fs = s ∧ (processFile noFault s n).thrown = none := by
  rcases h with h0 | ⟨hne, hb⟩
  · have hex : existsSyncFs s (extName n) = true := by
      rw [h0]
      rfl
    have hr : renameCall noFault s n (extName n) = .ok s := by
      rw [h0]
      simp [renameCall, noFault, renameSyncFs, lookupChild_isSome_iff.mpr hn]
    rw [processFile_exists_ok hex hr]
    exact ⟨rfl, rfl⟩
  · have hexs : (lookupChild s (extName n)).isSome = true := by
      rcases hb with ⟨c, hc⟩ | ⟨ch, hch, _⟩
      · rw [hc]; rfl
      · rw [hch]; rfl
    have hex : existsSyncFs s (extName n) = true := by
      unfold existsSyncFs
      rw [if_neg hne]
      exact hexs
    obtain ⟨e, he⟩ := renameSyncFs_err_of_blocked hne hb
    have hr : renameCall noFault s n (extName n) = .error e := by
      simp [renameCall, noFault, he]
    rw [processFile_exists_err hex hr]
    exact ⟨rfl, rfl⟩

theorem forEachFiles_id (o : Faults) (s : Children) (l : List String)
    (h : ∀ n ∈ l, (processFile o s n).fs = s ∧ (processFile o s n).thrown = none) :
    (forEachFiles o s l).fs = s := by
  induction l with
  | nil => rfl
  | cons f rest ih =>
    obtain ⟨hfs, hth⟩ := h f (List.mem_cons_self f rest)
    rw [forEachFiles_fs_cons_of_thrown_none hth, hfs]
    exact ih fun n hn => h n (List.mem_cons_of_mem _ hn)

theorem processFile_preserves_Blocked (o : Faults) (s : Children) (f n : String)
    (hnf : n ≠ f) (hne : extName n ≠ "") (hb : Blocked s n) :
    Blocked (processFile o s f).fs n := by
  rcases processFile_fs_cases o s f with hfs | ⟨hfresh, hfs⟩ | ⟨sM, ch, src, hx, hsM, hpx, hpf, hfs⟩
  · rwa [hfs]
  · rw [hfs]
    rcases hb with ⟨c, hc⟩ | ⟨chn, hch, hin⟩
    · exact Or.inl ⟨c, lookupChild_append_left hc⟩
    · refine Or.inr ⟨chn, lookupChild_append_left hch, ?_⟩
      rcases hin with ⟨c2, ch3, hd, hs⟩ | ⟨ch2, c3, hd, hs⟩ | ⟨ch2, ch3, hd, hs, hemp⟩
      · exact Or.inl ⟨c2, ch3, hd, lookupChild_append_left hs⟩
      · exact Or.inr (Or.inl ⟨ch2, c3, hd, lookupChild_append_left hs⟩)
      · exact Or.inr (Or.inr ⟨ch2, ch3, hd, lookupChild_append_left hs, hemp⟩)
  · rw [hfs]
    have hsome : ∀ (k : String) (v : FsNode),
        lookupChild s k = some v → lookupChild sM k = some v := by
      rcases hsM with rfl | ⟨hfresh, rfl⟩
      · exact fun k v hv => hv
      · exact fun k v hv => lookupChild_append_left hv
    have hfx : f ≠ extName f := ne_of_dotted_of_dotfree hx (dot_not_mem_extName f)
    have hfy : f ≠ extName n := ne_of_dotted_of_dotfree hx (dot_not_mem_extName n)
    have hnx : n ≠ extName f := ne_of_dotted_of_dotfree hne (dot_not_mem_extName f)
    have hkeep : ∀ k : String, k ≠ f → k ≠ extName f →
        lookupChild (setChild (eraseChild sM f) (extName f)
          (FsNode.dir (insertChild ch f src))) k = lookupChild sM k := by
      intro k h1 h2
      rw [lookupChild_setChild_ne h2, lookupChild_eraseChild_ne h1]
    rcases hb with ⟨c, hc⟩ | ⟨chn, hch, hin⟩
    · have hy : lookupChild sM (extName n) = some (.file c) := hsome _ _ hc
      have hyx : extName n ≠ extName f := by
        intro hEq
        rw [hEq, hpx] at hy
        cases hy
      refine Or.inl ⟨c, ?_⟩
      rw [hkeep _ (Ne.symm hfy) hyx]
      exact hy
    · have hsMy : lookupChild sM (extName n) = some (.dir chn) := hsome _ _ hch
      have htop : ∀ v : FsNode, lookupChild s n = some v →
          lookupChild (setChild (eraseChild sM f) (extName f)
            (FsNode.dir (insertChild ch f src))) n = some v := by
        intro v hv
        rw [hkeep n hnf hnx]
        exact hsome _ _ hv
      by_cases hyx : extName n = extName f
      · have hcc : ch = chn := by
          rw [hyx, hpx] at hsMy
          exact FsNode.dir.inj (Option.some.inj hsMy)
        subst hcc
        have hself : lookupChild (setChild (eraseChild sM f) (extName f)
            (FsNode.dir (insertChild ch f src))) (extName n) =
            some (.dir (insertChild ch f src)) := by
          rw [hyx]
          exact lookupChild_setChild_self
            (by rw [lookupChild_eraseChild_ne (Ne.symm hfx), hpx]; rfl)
        have hins : lookupChild (insertChild ch f src) n = lookupChild ch n :=
          lookupChild_insertChild_ne hnf
        refine Or.inr ⟨insertChild ch f src, hself, ?_⟩
        rcases hin with ⟨c2, ch3, hd, hs⟩ | ⟨ch2, c3, hd, hs⟩ | ⟨ch2, ch3, hd, hs, hemp⟩
        · exact Or.inl ⟨c2, ch3, by rw [hins]; exact hd, htop _ hs⟩
        · exact Or.inr (Or.inl ⟨ch2, c3, by rw [hins]; exact hd, htop _ hs⟩)
        · exact Or.inr (Or.inr ⟨ch2, ch3, by rw [hins]; exact hd, htop _ hs, hemp⟩)
      · refine Or.inr ⟨chn, ?_, ?_⟩
        · rw [hkeep _ (Ne.symm hfy) hyx]
          exact hsMy
        · rcases hin with ⟨c2, ch3, hd, hs⟩ | ⟨ch2, c3, hd, hs⟩ | ⟨ch2, ch3, hd, hs, hemp⟩
          · exact Or.inl ⟨c2, ch3, hd, htop _ hs⟩
          · exact Or.inr (Or.inl ⟨ch2, c3, hd, htop _ hs⟩)
          · exact Or.inr (Or.inr ⟨ch2, ch3, hd, htop _ hs, hemp⟩)

theorem processFile_top_sub (o : Faults) (s : Children) (f n : String)
    (hn : n ∈ readdirNames (processFile o s f).fs) :
    n ∈ readdirNames s ∨ n = extName f := by
  rcases processFile_fs_cases o s f with hfs | ⟨hfresh, hfs⟩ | ⟨sM, ch, src, hx, hsM, hpx, hpf, hfs⟩
  · rw [hfs] at hn
    exact Or.inl hn
  · rw [hfs, readdirNames_append] at hn
    rcases List.mem_append.mp hn with h | h
    · exact Or.inl h
    · right
      simpa [readdirNames] using h
  · rw [hfs, readdirNames_setChild] at hn
    have hmem := mem_readdirNames_eraseChild hn
    rcases hsM with rfl | ⟨hfresh, rfl⟩
    · exact Or.inl hmem
    · rw [readdirNames_append] at hmem
      rcases List.mem_append.mp hmem with h | h
      · exact Or.inl h
      · right
        simpa [readdirNames] using h

theorem processFile_self_blocked (s : Children) (f : String) (hne : extName f ≠ "")
    (hf : f ∈ readdirNames (processFile noFault s f).fs) :
    Blocked (processFile noFault s f).fs f := by
  cases hex : existsSyncFs s (extName f) with
  | true =>
    cases hr : renameCall noFault s f (extName f) with
    | ok st' =>
      simp only [processFile_exists_ok hex hr] at hf ⊢
      rcases renameCall_ok_cases hr with ⟨hxe, rfl⟩ | ⟨hxe, ch, src, hpx, hpf, rfl⟩
      · exact absurd hxe hne
      · exfalso
        rw [readdirNames_setChild] at hf
        exact not_mem_readdirNames_eraseChild_self hf
    | error e =>
      simp only [processFile_exists_err hex hr] at hf ⊢
      have hpf : (lookupChild s f).isSome = true := lookupChild_isSome_iff.mpr hf
      have hpx : (lookupChild s (extName f)).isSome = true := by
        unfold existsSyncFs at hex
        rw [if_neg hne] at hex
        exact hex
      have he : renameSyncFs s f (extName f) = .error e := by
        unfold renameCall at hr
        simpa [noFault] using hr
      exact renameSyncFs_err_blocked hne he hpx hpf
  | false =>
    obtain ⟨hx0, hl⟩ := existsSyncFs_false_elim hex
    have hm : mkdirCall noFault s (extName f) = .ok (s ++ [(extName f, FsNode.dir [])]) := by
      simp [mkdirCall, noFault, mkdirSyncFs, hl]
    cases hr : renameCall noFault (s ++ [(extName f, FsNode.dir [])]) f (extName f) with
    | ok st' =>
      simp only [processFile_new_ok hex hm hr] at hf ⊢
      rcases renameCall_ok_cases hr with ⟨hxe, rfl⟩ | ⟨hxe, ch, src, hpx, hpf, rfl⟩
      · exact absurd hxe hne
      · exfalso
        rw [readdirNames_setChild] at hf
        exact not_mem_readdirNames_eraseChild_self hf
    | error e =>
      simp only [processFile_new_err hex hm hr] at hf ⊢
      exfalso
      have hpx1 : lookupChild (s ++ [(extName f, FsNode.dir [])]) (extName f)
          = some (.dir []) := by
        rw [lookupChild_append_right hl]
        simp [lookupChild]
      have hpf1 : (lookupChild (s ++ [(extName f, FsNode.dir [])]) f).isSome = true :=
        lookupChild_isSome_iff.mpr hf
      have he : renameSyncFs (s ++ [(extName f, FsNode.dir [])]) f (extName f) = .error e := by
        unfold renameCall at hr
        simpa [noFault] using hr
      unfold renameSyncFs at he
      rw [if_neg hne] at he
      simp only [hpx1] at he
      cases hcf : lookupChild (s ++ [(extName f, FsNode.dir [])]) f with
      | none => rw [hcf] at hpf1; cases hpf1
      | some src =>
        simp only [hcf, lookupChild] at he
        cases he

theorem forEachFiles_leaves_blocked (l : List String) :
    ∀ s : Children,
      (∀ n, n ∈ readdirNames s → extName n ≠ "" → n ∈ l ∨ Blocked s n) →
      ∀ n, n ∈ readdirNames (forEachFiles noFault s l).fs → extName n ≠ "" →
        Blocked (forEachFiles noFault s l).fs n := by
  induction l with
  | nil =>
    intro s hinv n hn hne
    rcases hinv n hn hne with h | h
    · cases h
    · exact h
  | cons f rest ih =>
    intro s hinv n hn hne
    have hth := processFile_noFault_thrown s f
    rw [forEachFiles_fs_cons_of_thrown_none hth] at hn ⊢
    refine ih (processFile noFault s f).fs ?_ n hn hne
    intro m hm hme
    rcases processFile_top_sub noFault s f m hm with hms | hmx
    · rcases hinv m hms hme with hml | hmb
      · rcases List.mem_cons.mp hml with rfl | hml'
        · exact Or.inr (processFile_self_blocked s m hme hm)
        · exact Or.inl hml'
      · by_cases hmf : m = f
        · subst hmf
          exact Or.inr (processFile_self_blocked s m hme hm)
        · exact Or.inr (processFile_preserves_Blocked noFault s f m hmf hme hmb)
    · rw [hmx] at hme
      exact absurd (extName_extName f) hme

/-! ### Operation traces and path validity -/

theorem processFile_ops_shape (o : Faults) (st : Children) (f : String) :
    ∀ op ∈ (processFile o st f).ops,
      (op = Op.mkdir [extName f] ∧ extName f ≠ "") ∨ op = Op.rename [f] (destPath f) := by
  cases hex : existsSyncFs st (extName f) with
  | true =>
    cases hr : renameCall o st f (extName f) with
    | ok st' =>
      simp only [processFile_exists_ok hex hr]
      intro op hop
      rw [List.mem_singleton] at hop
      exact Or.inr hop
    | error e =>
      simp only [processFile_exists_err hex hr]
      intro op hop
      rw [List.mem_singleton] at hop
      exact Or.inr hop
  | false =>
    obtain ⟨hx0, hl⟩ := existsSyncFs_false_elim hex
    have hdd : destDir f = [extName f] := by
      unfold destDir
      rw [if_neg hx0]
    cases hm : mkdirCall o st (extName f) with
    | error e =>
      simp only [processFile_mkdir_err hex hm]
      intro op hop
      rw [List.mem_singleton] at hop
      exact Or.inl ⟨by rw [hop, hdd], hx0⟩
    | ok st1 =>
      cases hr : renameCall o st1 f (extName f) with
      | ok st' =>
        simp only [processFile_new_ok hex hm hr]
        intro op hop
        rcases List.mem_cons.mp hop with rfl | hop'
        · exact Or.inl ⟨by rw [hdd], hx0⟩
        · rw [List.mem_singleton] at hop'
          exact Or.inr hop'
      | error e =>
        simp only [processFile_new_err hex hm hr]
        intro op hop
        rcases List.mem_cons.mp hop with rfl | hop'
        · exact Or.inl ⟨by rw [hdd], hx0⟩
        · rw [List.mem_singleton] at hop'
          exact Or.inr hop'

theorem forEachFiles_ops_shape (o : Faults) (l : List String) :
    ∀ st : Children, ∀ op ∈ (forEachFiles o st l).ops, ∃ f ∈ l,
      (op = Op.mkdir [extName f] ∧ extName f ≠ "") ∨ op = Op.rename [f] (destPath f) := by
  induction l with
  | nil =>
    intro st op hop
    cases hop
  | cons f rest ih =>
    intro st op hop
    cases ht : (processFile o st f).thrown with
    | some e =>
      rw [forEachFiles_cons_of_thrown ht] at hop
      exact ⟨f, List.mem_cons_self f rest, processFile_ops_shape o st f op hop⟩
    | none =>
      rw [forEachFiles_cons_of_thrown_none ht] at hop
      rcases List.mem_append.mp hop with h | h
      · exact ⟨f, List.mem_cons_self f rest, processFile_ops_shape o st f op h⟩
      · obtain ⟨g, hg, hsh⟩ := ih (processFile o st f).fs op h
        exact ⟨g, List.mem_cons_of_mem _ hg, hsh⟩

theorem validEntryName_extName {f : String} (hv : ValidEntryName f)
    (hne : extName f ≠ "") : ValidEntryName (extName f) := by
  obtain ⟨hd, hs, h1, h2⟩ := hv
  refine ⟨?_, ?_, ?_, ?_⟩
  · intro hnil
    exact hne (String.ext hnil)
  · intro hm
    exact hs (mem_data_of_mem_extName hm)
  · intro hdot
    have := dot_not_mem_extName f
    rw [hdot] at this
    exact this (by decide)
  · intro hdot
    have := dot_not_mem_extName f
    rw [hdot] at this
    exact this (by decide)

/-! ### Claim theorems -/

/-- C1 (code_bug): the spec demands that a pre-existing destination file is
never overwritten and that such a move is recorded as
`Failed: destination collision`.  The script calls `fs.renameSync`, whose
POSIX semantics silently replaces an existing destination file.  At the
claim's own scenario — `b.txt` at top level and a pre-existing
`txt/b.txt` — the run replaces the destination file (content tag 2 is
gone, tag 1 now sits at `txt/b.txt`) and logs the move as a success; no
failure outcome exists. -/
theorem renameSync_overwrites_destination :
    (organize noFault
        [("b.txt", FsNode.file 1), ("txt", FsNode.dir [("b.txt", FsNode.file 2)])]).fs
      = [("txt", FsNode.dir [("b.txt", FsNode.file 1)])] ∧
    (organize noFault
        [("b.txt", FsNode.file 1), ("txt", FsNode.dir [("b.txt", FsNode.file 2)])]).events
      = [Event.folderExists, Event.moved "b.txt", Event.folderExists, Event.moved "txt"] :=
  ⟨rfl, rfl⟩

/-- C2 (confirmed): every entry seen at scan time still exists after the
run, at its original top-level location or inside the destination
directory named after its extension — under any injected transient faults,
including a forced move failure and a `mkdirSync` exception that aborts
the batch.  No scanned entry is ever deleted. -/
theorem organize_no_data_loss (o : Faults) (st : Children) (f : String)
    (hf : f ∈ readdirNames st) : locatedB (organize o st).fs f = true := by
  unfold organize
  refine forEachFiles_preserves_locatedB o (readdirNames st) st f ?_
  rw [locatedB_eq_true_iff]
  exact Or.inl (lookupChild_isSome_iff.mpr hf)

/-- Witness for C2 at a concrete directory. -/
theorem organize_no_data_loss_witness :
    locatedB (organize noFault [("a.txt", FsNode.file 0)]).fs "a.txt" = true :=
  organize_no_data_loss noFault [("a.txt", FsNode.file 0)] "a.txt" (by decide)

/-- C3 counterexample: classification is not case-insensitive.  `a.TXT`
classifies to category `TXT`, not `txt`, and after one run on the claim's
own scenario the `txt` directory holds only `b.txt` — the three files do
not end up in a single destination directory. -/
theorem extName_case_sensitive_counterexample :
    extName "a.TXT" = "TXT" ∧ extName "b.txt" = "txt" ∧ ("TXT" : String) ≠ "txt" ∧
    lookupChild (organize noFault
        [("a.TXT", FsNode.file 1), ("b.txt", FsNode.file 2), ("c.Txt", FsNode.file 3)]).fs
        "txt"
      = some (FsNode.dir [("b.txt", FsNode.file 2)]) :=
  ⟨rfl, rfl, by decide, rfl⟩

/-- C3 (corrected): classification is case-sensitive — the category is the
extension exactly as written, with no lowercasing — so `a.TXT`, `b.txt`
and `c.Txt` classify to the three distinct categories `TXT`, `txt`, `Txt`
and one run moves them into three distinct destination directories. -/
theorem organize_groups_case_sensitively :
    (organize noFault
        [("a.TXT", FsNode.file 1), ("b.txt", FsNode.file 2), ("c.Txt", FsNode.file 3)]).fs
      = [("TXT", FsNode.dir [("a.TXT", FsNode.file 1)]),
         ("txt", FsNode.dir [("b.txt", FsNode.file 2)]),
         ("Txt", FsNode.dir [("c.Txt", FsNode.file 3)])] ∧
    (organize noFault
        [("a.TXT", FsNode.file 1), ("b.txt", FsNode.file 2), ("c.Txt", FsNode.file 3)]).events
      = [Event.moved "a.TXT", Event.moved "b.txt", Event.moved "c.Txt"] :=
  ⟨rfl, rfl⟩

/-- C4 counterexample: a file without an extension is not moved into any
`_noext` subdirectory.  `README` gets the empty category, the destination
equals the source, the rename is a no-op logged as a success, and no
`_noext` entry exists after the run. -/
theorem organize_noext_counterexample :
    (organize noFault [("README", FsNode.file 1)]).fs = [("README", FsNode.file 1)] ∧
    lookupChild (organize noFault [("README", FsNode.file 1)]).fs "_noext" = none ∧
    (organize noFault [("README", FsNode.file 1)]).events
      = [Event.folderExists, Event.moved "README"] :=
  ⟨rfl, rfl, rfl⟩

/-- C4 (corrected): an entry without an extension classifies to the empty
string, not to a `_noext` sentinel.  Since `path.join` collapses the empty
segment, the existence check hits the scanned directory itself and the
rename targets the entry's own path: the entry stays in place and the
no-op rename is logged as a successful move. -/
theorem noext_self_rename (o : Faults) (s : Children) (f : String)
    (h1 : extName f = "") (h2 : (lookupChild s f).isSome = true)
    (h3 : o.renameFail f = false) :
    processFile o s f
      = ⟨s, [Event.folderExists, Event.moved f], [Op.rename [f] [f]], none⟩ := by
  have hex : existsSyncFs s (extName f) = true := by
    rw [h1]
    rfl
  have hr : renameCall o s f (extName f) = .ok s := by
    simp [renameCall, h3, h1, renameSyncFs, h2]
  have hdp : destPath f = [f] := by
    unfold destPath destDir
    rw [if_pos h1]
    rfl
  rw [processFile_exists_ok hex hr, hdp]

/-- Witness for C4's corrected claim at the `README` scenario. -/
theorem noext_self_rename_witness :
    processFile noFault [("README", FsNode.file 1)] "README"
      = ⟨[("README", FsNode.file 1)], [Event.folderExists, Event.moved "README"],
         [Op.rename ["README"] ["README"]], none⟩ :=
  noext_self_rename noFault [("README", FsNode.file 1)] "README" rfl rfl rfl

/-- C5 counterexample: a scanned entry that is itself a directory is not
skipped — it is classified and moved like a file.  A directory named
`photos.jpg` is itself moved into the freshly created `jpg`
subdirectory. -/
theorem organize_moves_directory_counterexample :
    (organize noFault [("photos.jpg", FsNode.dir [])]).fs
      = [("jpg", FsNode.dir [("photos.jpg", FsNode.dir [])])] ∧
    (organize noFault [("photos.jpg", FsNode.dir [])]).events
      = [Event.moved "photos.jpg"] :=
  ⟨rfl, rfl⟩

/-- C5 (corrected): the script never tests whether an entry is a
directory and records no `Skipped` outcome.  A directory whose name has no
dot (`images`) gets the empty category, is renamed onto itself — left
unchanged but logged as a successful move — while a directory with an
extension-like name (`photos.jpg`) is itself moved into the category
subdirectory. -/
theorem organize_directories_processed_like_files :
    (organize noFault [("images", FsNode.dir []), ("photos.jpg", FsNode.dir [])]).fs
      = [("images", FsNode.dir []), ("jpg", FsNode.dir [("photos.jpg", FsNode.dir [])])] ∧
    (organize noFault [("images", FsNode.dir []), ("photos.jpg", FsNode.dir [])]).events
      = [Event.folderExists, Event.moved "images", Event.moved "photos.jpg"] :=
  ⟨rfl, rfl⟩

/-- C6 counterexample: the second run's report is not free of successful
move outcomes and contains no `Skipped: already organized` outcome — after
organizing `[a.txt]`, the second run logs `folder exists` and
`File moved successfully!` for the category directory `txt` (a no-op
self-rename), and the script has no `Skipped` outcome at all. -/
theorem second_run_logs_success_counterexample :
    (organize noFault (organize noFault [("a.txt", FsNode.file 0)]).fs).events
      = [Event.folderExists, Event.moved "txt"] := rfl

/-- C6 (corrected): the state part of the idempotence claim does hold —
for any starting directory listing, a second run of the script changes
nothing: every entry left at top level either has an empty category (its
rename is a no-op onto itself, logged as a success rather than skipped) or
is still blocked by the same obstruction that made its first-run rename
fail. -/
theorem organize_state_idempotent (st : Children) :
    (organize noFault (organize noFault st).fs).fs = (organize noFault st).fs := by
  have hb : ∀ n, n ∈ readdirNames (organize noFault st).fs → extName n ≠ "" →
      Blocked (organize noFault st).fs n :=
    forEachFiles_leaves_blocked (readdirNames st) st fun n hn _ => Or.inl hn
  unfold organize
  apply forEachFiles_id
  intro n hn
  refine processFile_id_of_blocked _ n hn ?_
  by_cases hne : extName n = ""
  · exact Or.inl hne
  · exact Or.inr ⟨hne, hb n hn hne⟩

/-- C7 counterexample: a `mkdirSync` failure is not caught per-entry.
With a fault injected into the creation of `txt`, processing of `a.txt`
throws out of the loop: the whole batch aborts, `b.jpg` is never
processed and receives no outcome, and the outer catch logs a single
global error. -/
theorem mkdir_failure_aborts_counterexample :
    organizeScript ⟨fun _ => false, fun x => x == "txt"⟩
        (some [("a.txt", FsNode.file 1), ("b.jpg", FsNode.file 2)])
      = (some [("a.txt", FsNode.file 1), ("b.jpg", FsNode.file 2)],
         [Event.outerError FsErr.injected]) := rfl

/-- C7 (corrected): only `renameSync` failures are caught per-entry — a
failed rename is logged and the loop continues with the next entry —
while a `mkdirSync` failure is thrown past the per-entry handler: the
batch stops at that entry with an uncaught exception and the remaining
entries are never processed. -/
theorem rename_caught_mkdir_uncaught (o : Faults) (st : Children) (f : String)
    (rest : List String) (e : FsErr) :
    (existsSyncFs st (extName f) = true → renameCall o st f (extName f) = .error e →
      forEachFiles o st (f :: rest) =
        ⟨(forEachFiles o st rest).fs,
         Event.folderExists :: Event.moveError f e :: (forEachFiles o st rest).events,
         Op.rename [f] (destPath f) :: (forEachFiles o st rest).ops,
         (forEachFiles o st rest).thrown⟩) ∧
    (existsSyncFs st (extName f) = false → o.mkdirFail (extName f) = true →
      forEachFiles o st (f :: rest)
        = ⟨st, [], [Op.mkdir [extName f]], some FsErr.injected⟩) := by
  constructor
  · intro hex hr
    have hpf := processFile_exists_err hex hr
    have hth : (processFile o st f).thrown = none := by rw [hpf]
    rw [forEachFiles_cons_of_thrown_none hth, hpf]
    rfl
  · intro hex hmf
    obtain ⟨hx0, hl⟩ := existsSyncFs_false_elim hex
    have hm : mkdirCall o st (extName f) = .error .injected := by
      simp [mkdirCall, hmf]
    have hpf := processFile_mkdir_err hex hm
    have hth : (processFile o st f).thrown = some FsErr.injected := by rw [hpf]
    rw [forEachFiles_cons_of_thrown hth, hpf]
    have hdd : destDir f = [extName f] := by
      unfold destDir
      rw [if_neg hx0]
    rw [hdd]

/-- Witness for C7's corrected claim: an injected rename fault on `a.txt`
is recorded and the loop goes on, while an injected mkdir fault on `txt`
aborts the batch before `b.jpg` is processed. -/
theorem rename_caught_mkdir_uncaught_witness :
    forEachFiles ⟨fun s => s == "a.txt", fun _ => false⟩
        [("a.txt", FsNode.file 1), ("txt", FsNode.dir [])] ["a.txt"]
      = ⟨[("a.txt", FsNode.file 1), ("txt", FsNode.dir [])],
         [Event.folderExists, Event.moveError "a.txt" FsErr.injected],
         [Op.rename ["a.txt"] ["txt", "a.txt"]], none⟩ ∧
    forEachFiles ⟨fun _ => false, fun x => x == "txt"⟩
        [("a.txt", FsNode.file 1), ("b.jpg", FsNode.file 2)] ["a.txt", "b.jpg"]
      = ⟨[("a.txt", FsNode.file 1), ("b.jpg", FsNode.file 2)], [],
         [Op.mkdir ["txt"]], some FsErr.injected⟩ :=
  ⟨(rename_caught_mkdir_uncaught ⟨fun s => s == "a.txt", fun _ => false⟩
      [("a.txt", FsNode.file 1), ("txt", FsNode.dir [])] "a.txt" [] FsErr.injected).1
      rfl rfl,
   (rename_caught_mkdir_uncaught ⟨fun _ => false, fun x => x == "txt"⟩
      [("a.txt", FsNode.file 1), ("b.jpg", FsNode.file 2)] "a.txt" ["b.jpg"]
      FsErr.injected).2 rfl rfl⟩

/-- C8 counterexample: when the target directory is missing, the error is
not propagated to the caller — the outer catch consumes it, logs
`"Error reading directory:"`, and the script returns normally.  (It is
true that no per-entry processing happens and no per-entry outcome is
produced.) -/
theorem missing_dir_counterexample :
    organizeScript noFault none = (none, [Event.outerError FsErr.enoent]) := rfl

/-- C8 (corrected): if the target directory does not exist, `readdirSync`
throws, no per-entry processing occurs and no per-entry outcome is
produced, but the error is swallowed by the outer catch and logged; the
script completes normally instead of propagating a `DirectoryNotFound`
error to the caller. -/
theorem missing_dir_logged_and_swallowed (o : Faults) :
    organizeScript o none = (none, [Event.outerError FsErr.enoent]) := rfl

/-- C9 (confirmed): the category is the suffix of the name after its last
dot — for any dot-free final segment `b`: a name `a.b` with nonempty `a`
(which may itself contain dots, as in `archive.tar.gz`) classifies to `b`;
a leading-dot name `.b` with no other dot yields the empty category,
exactly like a name `b` with no dot at all. -/
theorem extName_after_last_dot (a b : String) (ha : a.data ≠ []) (hb : '.' ∉ b.data) :
    extName (a ++ "." ++ b) = b ∧ extName ("." ++ b) = "" ∧ extName b = "" := by
  refine ⟨?_, ?_, extName_eq_empty_of_no_dot hb⟩
  · have hd : (a ++ "." ++ b).data = a.data ++ '.' :: b.data := by
      rw [String.data_append, String.data_append, List.append_assoc]
      rfl
    unfold extName
    rw [hd]
    cases hal : a.data with
    | nil => exact absurd hal ha
    | cons c as =>
      simp only [List.cons_append, extNameCore, afterLastDot_append hb]
  · have hd : ("." ++ b).data = '.' :: b.data := by
      rw [String.data_append]
      rfl
    unfold extName
    rw [hd]
    simp only [extNameCore, afterLastDot_eq_none_iff.mpr hb]

/-- Witness for C9 at the claim's own examples. -/
theorem extName_after_last_dot_witness :
    extName "archive.tar.gz" = "gz" ∧ extName ".gitignore" = "" ∧
      extName "gitignore" = "" := by
  have h1 := extName_after_last_dot "archive.tar" "gz" (by decide) (by decide)
  have h2 := extName_after_last_dot "x" "gitignore" (by decide) (by decide)
  exact ⟨h1.1, h2.2.1, h2.2.2⟩

/-- C10 (confirmed): every path the script passes to `mkdirSync` or
`renameSync` stays inside the scanned directory: each operation belongs to
some scanned entry `f`, the created directory is the one-segment path of
`f`'s category, the move goes from the entry's top-level path to
`category/f` (with the category segment dropped when empty), and — for
names `readdirSync` can actually return — every path is at most two valid
segments deep, so no operation can touch anything outside the scanned
directory. -/
theorem organize_paths_inside_root (o : Faults) (st : Children)
    (hv : ∀ n ∈ readdirNames st, ValidEntryName n) :
    ∀ op ∈ (organize o st).ops, ∃ f ∈ readdirNames st,
      ((op = Op.mkdir [extName f] ∧ extName f ≠ "") ∨ op = Op.rename [f] (destPath f)) ∧
      ∀ p ∈ opPaths op, InsideRoot p := by
  intro op hop
  obtain ⟨f, hf, hshape⟩ := forEachFiles_ops_shape o (readdirNames st) st op hop
  have hvf : ValidEntryName f := hv f hf
  refine ⟨f, hf, hshape, ?_⟩
  rcases hshape with ⟨rfl, hne⟩ | rfl
  · intro p hp
    simp only [opPaths, List.mem_singleton] at hp
    subst hp
    refine ⟨by simp, ?_⟩
    intro seg hseg
    rw [List.mem_singleton] at hseg
    subst hseg
    exact validEntryName_extName hvf hne
  · intro p hp
    simp only [opPaths] at hp
    rcases List.mem_cons.mp hp with rfl | hp'
    · refine ⟨by simp, ?_⟩
      intro seg hseg
      rw [List.mem_singleton] at hseg
      subst hseg
      exact hvf
    · rw [List.mem_singleton] at hp'
      subst hp'
      unfold destPath destDir
      by_cases hne : extName f = ""
      · rw [if_pos hne]
        refine ⟨by simp, ?_⟩
        intro seg hseg
        simp only [List.nil_append, List.mem_singleton] at hseg
        subst hseg
        exact hvf
      · rw [if_neg hne]
        refine ⟨by simp, ?_⟩
        intro seg hseg
        simp only [List.cons_append, List.nil_append] at hseg
        rcases List.mem_cons.mp hseg with rfl | hseg'
        · exact validEntryName_extName hvf hne
        · rw [List.mem_singleton] at hseg'
          subst hseg'
          exact hvf

/-- Witness for C10 at a concrete directory: both paths touched while
organizing `[a.txt]` — the created `txt` directory and the move
destination `txt/a.txt` — stay inside the scanned directory. -/
theorem organize_paths_inside_root_witness :
    InsideRoot ["txt"] ∧ InsideRoot ["txt", "a.txt"] := by
  have h := organize_paths_inside_root noFault [("a.txt", FsNode.file 1)] (by decide)
  obtain ⟨f1, hf1, hs1, hp1⟩ := h (Op.mkdir ["txt"]) (by decide)
  obtain ⟨f2, hf2, hs2, hp2⟩ := h (Op.rename ["a.txt"] ["txt", "a.txt"]) (by decide)
  exact ⟨hp1 ["txt"] (by decide), hp2 ["txt", "a.txt"] (by decide)⟩
